import Mathlib

/-!
Verification development for the svgling tree-layout engine
(`svgling/core.py`). Python values, functions and methods are shallowly
embedded as Lean definitions: machine floats are modelled by exact
rationals, Python lists by `List`, raised exceptions by `Except`, and the
mutable `TreeLayout` object by an explicit `LayoutState` record threaded
through the annotation operations.
-/

namespace Svgling

/-! ## Python value universe for the tree-splitting layer

`PyVal` models the values that `tree_split` / `tree_parse` can receive:
strings, tuple/list sequences, nltk-style tree objects (which expose a
`label()` accessor and are list-like sequences of their children), and
opaque non-sequence atoms. -/

inductive PyVal where
  | str : String → PyVal
  | tup : List PyVal → PyVal
  | nltk : PyVal → List PyVal → PyVal
  | atom : Nat → PyVal

/-- Embedding of `treelet_split_nltk`: succeeds exactly on values
implementing the nltk.Tree api (`t.label()` plus list conversion, where the
list elements are the children). -/
def treelet_split_nltk : PyVal → Option (PyVal × List PyVal)
  | .nltk l cs => some (l, cs)
  | _ => none

/-- Embedding of `treelet_split_list`: a sequence that is not a `str` is
split lisp-style into head and rest; an empty sequence is the empty leaf
`("", ())`.  nltk trees are list subclasses, hence sequences of their
children. -/
def treelet_split_list : PyVal → Option (PyVal × List PyVal)
  | .tup [] => some (.str "", [])
  | .tup (x :: xs) => some (x, xs)
  | .nltk _ [] => some (.str "", [])
  | .nltk _ (c :: cs) => some (c, cs)
  | _ => none

/-- Embedding of `tree_split` with node function `f`: try the nltk api
first, then lisp-style sequences, else treat the value as a leaf node. -/
def tree_split (f : PyVal → PyVal) (t : PyVal) : PyVal × List PyVal :=
  match treelet_split_nltk t with
  | some (n, cs) => (f n, cs)
  | none =>
    match treelet_split_list t with
    | some (n, cs) => (f n, cs)
    | none => (f t, [])

mutual

/-- Embedding of `tree_parse` with the identity node function: recursively
split `t` and rebuild it as a lisp-style tuple
`(node, parsed child, ...)`.  The cases are the unfolding of
`tree_split id` on each constructor (see `tree_parse_via_split`). -/
def tree_parse : PyVal → PyVal
  | .str s => .tup [.str s]
  | .atom n => .tup [.atom n]
  | .tup [] => .tup [.str ""]
  | .tup (x :: xs) => .tup (x :: tree_parse_list xs)
  | .nltk l cs => .tup (l :: tree_parse_list cs)

/-- Pointwise `tree_parse` over a child list. -/
def tree_parse_list : List PyVal → List PyVal
  | [] => []
  | c :: cs => tree_parse c :: tree_parse_list cs

end

/-! ## Python-style sequence indexing -/

/-- Python sequence indexing `l[i]`: non-negative indices are positional,
negative indices count from the end, anything out of `[-len, len)` raises
`IndexError`, modelled as `none`. -/
def pyIdx {α : Type} (l : List α) (i : Int) : Option α :=
  if 0 ≤ i then l.get? i.toNat
  else if 0 ≤ (l.length : Int) + i then l.get? ((l.length : Int) + i).toNat
  else none

/-! ## Layout options

`Opts` embeds the `TreeOptions` fields that the layout passes consume.
Per-node option overrides (`set_node_style` and friends) are outside this
embedding, so every node carries the tree-wide options and the font-scale
ratio `node.options.font_size / self.options.font_size` from
`_build_initial_layout` is identically `1` and omitted. -/

inductive HorizSpacing where
  | TEXT
  | EVEN
  | NODES
deriving DecidableEq, Repr

inductive VertAlign where
  | TOP
  | CENTER
  | BOTTOM
  | FULL
deriving DecidableEq, Repr

structure Opts where
  horiz_spacing : HorizSpacing
  vert_align : VertAlign
  leaf_padding : ℚ
  distance_to_daughter : ℚ
  average_glyph_width : ℚ
  font_size : ℚ
  leaf_nodes_align : Bool
deriving Repr

/-- Default option values from `_opt_defaults` (the fields modelled here). -/
def defaultOpts : Opts :=
  { horiz_spacing := .TEXT, vert_align := .CENTER, leaf_padding := 2,
    distance_to_daughter := 2, average_glyph_width := 2, font_size := 16,
    leaf_nodes_align := false }

/-- Embedding of `TreeOptions.label_width` on a known character count:
`(len(str(label)) + leaf_padding) / average_glyph_width`, in ems. -/
def label_width_len (o : Opts) (n : Nat) : ℚ :=
  ((n : ℚ) + o.leaf_padding) / o.average_glyph_width

def Opts.label_width (o : Opts) (label : String) : ℚ :=
  label_width_len o label.length

/-- Python `text.split("\n")` on the character list of a label: always at
least one (possibly empty) line. -/
def lineSplit : List Char → List (List Char)
  | [] => [[]]
  | c :: cs =>
    let r := lineSplit cs
    if c = '\n' then [] :: r
    else
      match r with
      | [] => [[c]]
      | l :: ls => (c :: l) :: ls

/-- Embedding of `TreeOptions.em_to_px`. -/
def Opts.em_to_px (o : Opts) (n : ℚ) : ℚ :=
  n * o.font_size

/-- Python `max` over a non-empty list (first element seeds the fold); `0`
is a junk value for the empty list, on which Python `max` raises. -/
def pyMax : List ℚ → ℚ
  | [] => 0
  | x :: xs => xs.foldl max x

/-- Intrinsic (width, height) of a label box, from `multiline_node`: one em
of height per line and the widest line's `label_width`; a completely empty
label has height 0 and the width of an empty label. -/
def nodeWH (o : Opts) (label : String) : ℚ × ℚ :=
  if label.length ≠ 0 then
    let lens := (lineSplit label.data).map List.length
    (pyMax (lens.map (label_width_len o)), (lens.length : ℚ))
  else
    (o.label_width "", 0)

/-! ## Node boxes and layout trees

`NodePos` keeps the geometry fields of the Python class of the same name;
`width` starts as `orig_width = max(width, 1)` (the `set_dimensions`
clamp) and is rewritten to a percentage by `normalize_widths`.  A layout
is the lisp-style nested list `[NodePos, child, ...]` that
`_build_initial_layout` returns. -/

/-- String-labelled lisp-style input trees: the canonical shape that
`options.split` produces for the layout passes.  A leaf is a node with no
children. -/
inductive STree where
  | mk (label : String) (children : List STree)

structure NodePos where
  x : ℚ
  y : ℚ
  width : ℚ
  inner_width : ℚ
  height : ℚ
  depth : Nat
deriving Repr

inductive Layout where
  | mk (node : NodePos) (children : List Layout)

def Layout.node : Layout → NodePos
  | .mk n _ => n

def Layout.children : Layout → List Layout
  | .mk _ cs => cs

/-- Sum of the root widths of a list of sublayouts
(`sum([c[0].width for c in result_children])`). -/
def sumWidths (l : List Layout) : ℚ :=
  (l.map (fun c => c.node.width)).sum

mutual

/-- Embedding of `tree_depth`: `1 +` the maximum child depth (0 for a
leaf). -/
def heightS : STree → Nat
  | .mk _ cs => 1 + heightSL cs

def heightSL : List STree → Nat
  | [] => 0
  | c :: cs => max (heightS c) (heightSL cs)

end

mutual

/-- Embedding of `_build_initial_layout` for string-labelled lisp trees:
initialize raw widths and node heights in ems, set each node's depth (a
leaf is pulled to the deepest level when `leaf_nodes_align` is set), and
let a parent's width be the max of its own label width and the sum of its
children's widths. -/
def buildL (o : Opts) (td : Nat) : Nat → STree → Layout
  | lv, .mk s cs =>
    let lvl := if cs.isEmpty && o.leaf_nodes_align then td else lv
    let wh := nodeWH o s
    let ow := max wh.1 1
    let kids := buildLL o td (lv + 1) cs
    let np : NodePos :=
      { x := 50,
        y := 0,
        width := max ow (sumWidths kids),
        inner_width := ow,
        height := wh.2,
        depth := lvl }
    Layout.mk np kids

def buildLL (o : Opts) (td : Nat) : Nat → List STree → List Layout
  | _, [] => []
  | lv, c :: cs => buildL o td lv c :: buildLL o td lv cs

end

mutual

/-- Embedding of `leaf_nodecount`: each leaf counts `1 + leaf_padding`;
an inner node sums its children. -/
def leaf_nodecount (o : Opts) : Layout → ℚ
  | .mk _ [] => 1 + o.leaf_padding
  | .mk _ (c :: cs) => leaf_nodecountL o (c :: cs)

def leaf_nodecountL (o : Opts) : List Layout → ℚ
  | [] => 0
  | c :: cs => leaf_nodecount o c + leaf_nodecountL o cs

end

/-- Embedding of `_sublayout_width`: the spacing-scheme weight of a
sublayout — its precalculated em width for `TEXT`, its padded leaf count
for `NODES`, and `1` for `EVEN`. -/
def sublayout_width (o : Opts) (t : Layout) : ℚ :=
  match o.horiz_spacing with
  | .TEXT => t.node.width
  | .NODES => leaf_nodecount o t
  | .EVEN => 1

/-- The assignment loop at the end of `_normalize_widths`: each child's
root gets `width = widths[i] * 100 / sub_sum`,
`inner_width = inner_width * 100 / em_sum`, and `x` the running sum of the
new widths. -/
def assign_widths (sub_sum em_sum : ℚ) : ℚ → List ℚ → List Layout → List Layout
  | _, [], _ => []
  | _, _ :: _, [] => []
  | x0, w :: ws, c :: cs =>
    let nw := w * 100 / sub_sum
    let np : NodePos :=
      { c.node with
        width := nw,
        inner_width := c.node.inner_width * 100 / em_sum,
        x := x0 }
    Layout.mk np c.children :: assign_widths sub_sum em_sum (x0 + nw) ws cs

mutual

/-- Embedding of `_normalize_widths`: recurse into the children first (so
their proportions are computed while this node's widths are still in ems),
compute each child's spacing-scheme weight and the em sum of the child
widths, substitute the parent's own `inner_width` for the em sum when the
children are narrower than the parent's label, and rewrite each child's
root to percentage coordinates. -/
def normalize_widths (o : Opts) : Layout → Layout
  | .mk p [] => .mk p []
  | .mk p (c :: cs) =>
    let kids := normalize_widths_list o (c :: cs)
    let widths := kids.map (sublayout_width o)
    let sub_sum := widths.sum
    let em0 := sumWidths kids
    let em_sum := if em0 < p.inner_width then p.inner_width else em0
    Layout.mk p (assign_widths sub_sum em_sum 0 widths kids)

def normalize_widths_list (o : Opts) : List Layout → List Layout
  | [] => []
  | c :: cs => normalize_widths o c :: normalize_widths_list o cs

end

mutual

/-- Maximum node height recorded at depth `d`, equal to the
`level_heights[d]` dict entry that `_build_initial_layout` accumulates
(every level starts at 0). -/
def max_height_at : Layout → Nat → ℚ
  | .mk n cs, d => max (if n.depth = d then n.height else 0) (max_height_at_list cs d)

def max_height_at_list : List Layout → Nat → ℚ
  | [], _ => 0
  | c :: cs, d => max (max_height_at c d) (max_height_at_list cs d)

end

/-- Top dodge from `label_y_dodge` (the first tuple component): the
vertical offset of a node inside its row under the alignment policy. -/
def label_y_dodge_top (o : Opts) (lh : List ℚ) (level : Nat) (height : ℚ) : ℚ :=
  match o.vert_align with
  | .TOP => 0
  | .BOTTOM => lh.getD level 0 - height
  | .CENTER => (lh.getD level 0 - height) / 2
  | .FULL => 0

mutual

/-- Embedding of `_normalize_y`: under `FULL` alignment a node's height
becomes the full row height, then the node's `y` is its top dodge. -/
def normalize_y (o : Opts) (lh : List ℚ) : Layout → Layout
  | .mk p cs =>
    let h := if o.vert_align = .FULL then lh.getD p.depth 0 else p.height
    let np : NodePos := { p with height := h, y := label_y_dodge_top o lh p.depth h }
    Layout.mk np (normalize_y_list o lh cs)

def normalize_y_list (o : Opts) (lh : List ℚ) : List Layout → List Layout
  | [] => []
  | c :: cs => normalize_y o lh c :: normalize_y_list o lh cs

end

/-! ## The layout state

`LayoutState` packages the mutable fields of a `TreeLayout` object:
the finished layout, the per-level metrics, and the annotation state
(`annotations`, `extra_y`, and the `_movement_arrows` collision list). -/

structure Arrow where
  x1 : ℚ
  x2 : ℚ
  y : ℚ
deriving DecidableEq, Repr

inductive Ann where
  | rect (x y w h : ℚ)
  | lineAnn (x1 y1 x2 y2 : ℚ)
  | poly (pts : List (ℚ × ℚ))
deriving DecidableEq, Repr

structure LayoutState where
  options : Opts
  layout : Layout
  depth : Nat
  level_heights : List ℚ
  level_ys : List ℚ
  max_width : ℚ
  extra_y : ℚ
  annotations : List Ann
  arrows : List Arrow

/-- Embedding of `TreeLayout.__init__` / `_do_layout`: compute the tree
depth, build the initial em-unit layout, record the per-level heights and
y offsets and the root's em width, pin the root to `width = 100, x = 0`,
normalize widths to percentages and assign vertical positions.  `extra_y`
starts at the 0.5 set in `__init__`. -/
def mkLayout (o : Opts) (t : STree) : LayoutState :=
  let d := heightS t - 1
  let built := buildL o d 0 t
  let lh := (List.range (d + 1)).map (max_height_at built)
  let lys := (List.range (d + 1)).map
    (fun i => if i = 0 then 0 else o.distance_to_daughter + lh.getD (i - 1) 0)
  let rooted := Layout.mk { built.node with width := 100, x := 0 } built.children
  { options := o, layout := normalize_y o lh (normalize_widths o rooted),
    depth := d, level_heights := lh, level_ys := lys,
    max_width := built.node.width, extra_y := 1/2,
    annotations := [], arrows := [] }

/-! ## Path traversal and geometry queries -/

/-- Errors raised by layout methods: `path i c` is the
`AttributeError("Invalid tree path at index %d (daughter %d)")` from
`layout_iter`; `daughter d` is the `AttributeError("Invalid daughter index %d")`
from `set_edge_style`; `internal` marks Python failure modes with no
payload (an unbound name, `max`/`%` on an empty denominator) and the fuel
bound of the loop embeddings, shown unreachable where a claim needs it. -/
inductive LayoutErr where
  | path (i : Nat) (c : Int)
  | daughter (d : Int)
  | internal
deriving DecidableEq, Repr

/-- Embedding of `layout_iter`: walk a path from the root, collecting every
position visited; fails at the first invalid index `c`, reporting its
position `i` in the path. -/
def layoutIterGo : Layout → List Int → Nat → Except LayoutErr (List Layout)
  | t, [], _ => .ok [t]
  | t, c :: rest, i =>
    match pyIdx t.children c with
    | none => .error (.path i c)
    | some ch => (layoutIterGo ch rest (i + 1)).map (fun l => t :: l)

def layout_iter (st : LayoutState) (path : List Int) : Except LayoutErr (List Layout) :=
  layoutIterGo st.layout path 0

/-- Embedding of `sublayout`: the last element of `layout_iter` — the
layout position addressed by `path` (see `sublayoutGo_layoutIterGo`). -/
def sublayoutGo : Layout → Nat → List Int → Except LayoutErr Layout
  | t, _, [] => .ok t
  | t, i, c :: rest =>
    match pyIdx t.children c with
    | none => .error (.path i c)
    | some ch => sublayoutGo ch (i + 1) rest

def sublayout (st : LayoutState) (path : List Int) : Except LayoutErr Layout :=
  sublayoutGo st.layout 0 path

/-- Canonical non-negative form of a path, resolving each index the way
`l[i]` does; used to model Python object identity of the leaf `NodePos`
objects by their unique position in the layout. -/
def resolveGo : Layout → Nat → List Int → Except LayoutErr (List Nat)
  | _, _, [] => .ok []
  | t, i, c :: rest =>
    match pyIdx t.children c with
    | none => .error (.path i c)
    | some ch =>
      (resolveGo ch (i + 1) rest).map
        (fun q => (if 0 ≤ c then c.toNat else ((t.children.length : Int) + c).toNat) :: q)

def resolvePath (st : LayoutState) (path : List Int) : Except LayoutErr (List Nat) :=
  resolveGo st.layout 0 path

/-- The `while` loop of `nmost_path`: descend into daughter `n` until the
index fails (a leaf's empty child tuple, or `n` out of range).  The fuel
argument bounds the iteration count; the Python loop has no such bound and
terminates because each step descends one tree level. -/
def nmostLoop (n : Int) : Nat → Layout → List Int → Option (List Int)
  | 0, _, _ => none
  | fuel + 1, t, path =>
    match pyIdx t.children n with
    | none => some path
    | some c => nmostLoop n fuel c (path ++ [n])

/-- Embedding of `nmost_path`: look up the starting position, then run the
descent loop guarded by `len(path) < self.depth + 1` (the loop's counter
is never advanced, so the guard is only evaluated once).  Fuel
`depth + 1` is sufficient for any valid path (proved at claim C10);
exhaustion maps to `LayoutErr.internal`. -/
def nmost_path (st : LayoutState) (path : List Int) (n : Int) :
    Except LayoutErr (List Int) :=
  match sublayout st path with
  | .error e => .error e
  | .ok t =>
    if path.length < st.depth + 1 then
      match nmostLoop n (st.depth + 1) t path with
      | some q => .ok q
      | none => .error .internal
    else .ok path

def leftmost_path (st : LayoutState) (path : List Int) : Except LayoutErr (List Int) :=
  nmost_path st path 0

def rightmost_path (st : LayoutState) (path : List Int) : Except LayoutErr (List Int) :=
  nmost_path st path (-1)

/-- Embedding of `node_x_vals`: fold the percentage compositions along a
path — `left += node.x * width / 100` (with the incoming width), then
`width *= node.width / 100`. -/
def node_x_vals (st : LayoutState) (path : List Int) : Except LayoutErr (ℚ × ℚ) :=
  (layout_iter st path).map (fun l =>
    l.foldl (fun acc t => (acc.1 + t.node.x * acc.2 / 100, acc.2 * t.node.width / 100))
      (0, 100))

/-- Embedding of `y_distance`: the sum of `level_ys` over
`range(level_a + 1, min(self.depth, level_b) + 1)`. -/
def y_distance (st : LayoutState) (a b : Nat) : ℚ :=
  ((List.range' (a + 1) (min st.depth b + 1 - (a + 1))).map
    (fun l => st.level_ys.getD l 0)).sum

mutual

/-- Maximum depth over the leaves of a sublayout
(`max([l.depth for l in self.leaf_iter(parent)])`). -/
def leafDepthMax : Layout → Nat
  | .mk n [] => n.depth
  | .mk _ (c :: cs) => leafDepthMaxL (c :: cs)

def leafDepthMaxL : List Layout → Nat
  | [] => 0
  | c :: cs => max (leafDepthMax c) (leafDepthMaxL cs)

end

/-- `NodePos.descender_margin` (0.25 em). -/
def descender_margin : ℚ := 1/4

/-- The 0.25 em lower-edge margin `NodePos` reserves for tree
annotation positioning. -/
def annot_margin : ℚ := 1/4

structure Bounds where
  x : ℚ
  y : ℚ
  w : ℚ
  h : ℚ
deriving DecidableEq, Repr

/-- Embedding of `subtree_bounds`: x extent from the leftmost descendant
path's cumulative x to the rightmost's x plus width; y extent from the
root-to-parent row distance down through the deepest leaf's row plus the
descender and annotation margins. -/
def subtree_bounds (st : LayoutState) (path : List Int) : Except LayoutErr Bounds :=
  match sublayout st path with
  | .error e => .error e
  | .ok parent =>
    let deepest := leafDepthMax parent
    match leftmost_path st path with
    | .error e => .error e
    | .ok left_path =>
      match rightmost_path st path with
      | .error e => .error e
      | .ok right_path =>
        match node_x_vals st left_path with
        | .error e => .error e
        | .ok xl =>
          match node_x_vals st right_path with
          | .error e => .error e
          | .ok xr =>
            let x := xl.1
            let width := (xr.1 + xr.2) - x
            let y := y_distance st 0 parent.node.depth
            let height := y_distance st parent.node.depth deepest
                + st.level_heights.getD deepest 0 + descender_margin + annot_margin
            .ok ⟨x, y, width, height⟩

/-- Embedding of `TreeLayout.width()`: the root's pre-normalization em
width in pixels. -/
def tree_width_px (st : LayoutState) : ℚ :=
  st.options.em_to_px st.max_width

/-- Embedding of `subtree_bounds_user`: `subtree_bounds` rescaled to user
units (percentages against the canvas width, ems against the font
size). -/
def subtree_bounds_user (st : LayoutState) (path : List Int) : Except LayoutErr Bounds :=
  match subtree_bounds st path with
  | .error e => .error e
  | .ok b =>
    let tw := tree_width_px st
    .ok ⟨b.x * tw / 100, st.options.em_to_px b.y, b.w * tw / 100, st.options.em_to_px b.h⟩

/-- Embedding of `em_height`: total canvas height in ems, including the
annotation slack `extra_y`. -/
def em_height (st : LayoutState) : ℚ :=
  ((List.range (st.depth + 1)).map (fun l => st.level_ys.getD l 0)).sum
    + st.level_heights.getD st.depth 0 + st.extra_y

/-- Embedding of `common_parent`: longest common prefix of two paths,
comparing the raw index values. -/
def common_parent : List Int → List Int → List Int
  | a :: p1, b :: p2 => if a = b then a :: common_parent p1 p2 else []
  | _, _ => []

mutual

/-- Leaves of a sublayout in left-to-right order (`leaf_iter`), each
paired with its path relative to the sublayout root — the path stands in
for Python object identity. -/
def leavesWithPaths : Layout → List (List Nat × NodePos)
  | .mk n [] => [([], n)]
  | .mk _ (c :: cs) => leavesWithPathsL 0 (c :: cs)

def leavesWithPathsL : Nat → List Layout → List (List Nat × NodePos)
  | _, [] => []
  | i, c :: cs =>
    (leavesWithPaths c).map (fun pr => (i :: pr.1, pr.2)) ++ leavesWithPathsL (i + 1) cs

end

/-- The index-search loop in `leaf_span_iter`: scan all positions of `cl`
and remember the last one equal to `p` (identity matching via canonical
paths); `none` models the `NameError` when no match binds the index. -/
def lastIndexMatching (cl : List (List Nat)) (p : List Nat) : Option Nat :=
  (List.range cl.length).foldl
    (fun acc i => if cl.get? i = some p then some i else acc) none

/-- Lift an `Option` into the error monad (an unbound-name failure). -/
def need {α : Type} : Option α → Except LayoutErr α
  | none => .error .internal
  | some a => .ok a

/-- Embedding of `leaf_span_iter`: the left-to-right run of leaves between
the two paths — locate both paths' first leaves inside the common
ancestor's leaf list and slice from the leftmost of the two to the
rightmost plus that path's leaf count. -/
def leaf_span (st : LayoutState) (p1 p2 : List Int) : Except LayoutErr (List NodePos) :=
  let branch := common_parent p1 p2
  match sublayout st branch, sublayout st p1, sublayout st p2 with
  | .ok tb, .ok t1, .ok t2 =>
    (match resolvePath st branch, resolvePath st p1, resolvePath st p2 with
     | .ok rb, .ok r1, .ok r2 =>
       let cl := (leavesWithPaths tb).map (fun pr => (rb ++ pr.1, pr.2))
       let l1 := (leavesWithPaths t1).map (fun pr => r1 ++ pr.1)
       let l2 := (leavesWithPaths t2).map (fun pr => r2 ++ pr.1)
       (match need l1.head?, need l2.head? with
        | .ok h1, .ok h2 =>
          (match need (lastIndexMatching (cl.map (fun pr => pr.1)) h1),
             need (lastIndexMatching (cl.map (fun pr => pr.1)) h2) with
           | .ok i1, .ok i2 =>
             let lr := if i1 < i2 then (i1, i2 + l2.length) else (i2, i1 + l1.length)
             .ok (((cl.drop lr.1).take (lr.2 - lr.1)).map (fun pr => pr.2))
           | .error e, _ => .error e
           | _, .error e => .error e)
        | .error e, _ => .error e
        | _, .error e => .error e)
     | .error e, _, _ => .error e
     | _, .error e, _ => .error e
     | _, _, .error e => .error e)
  | .error e, _, _ => .error e
  | _, .error e, _ => .error e
  | _, _, .error e => .error e

/-- Embedding of `deepest_intervening_leaf`: the maximum depth over the
leaf span (`max` of a list that is non-empty for any non-empty tree). -/
def deepest_intervening_leaf (st : LayoutState) (p1 p2 : List Int) :
    Except LayoutErr Nat :=
  match leaf_span st p1 p2 with
  | .error e => .error e
  | .ok span =>
    match span.map (fun x => x.depth) with
    | [] => .error .internal
    | d :: ds => .ok (ds.foldl max d)

/-- Embedding of `set_edge_style`'s daughter-index handling: an empty path
is a silent no-op; a daughter index `≥ len(children)` raises; otherwise
the index is reduced modulo the child count (Python `%` with a positive
modulus is the Euclidean `emod`; on a childless parent the `%` is a
`ZeroDivisionError`, mapped to `internal`). -/
def set_edge_style_daughter (st : LayoutState) (path : List Int) :
    Except LayoutErr (Option Nat) :=
  match path.getLast? with
  | none => .ok none
  | some d => do
    let parentT ← sublayout st path.dropLast
    let n := parentT.children.length
    if (n : Int) ≤ d then .error (.daughter d)
    else if n = 0 then .error .internal
    else .ok (some (d.emod (n : Int)).toNat)

/-! ## Annotation operations -/

/-- Embedding of `math.isclose` with its default tolerances
(`rel_tol = 1e-9`, `abs_tol = 0`). -/
def pyIsClose (a b : ℚ) : Bool :=
  decide (|a - b| ≤ (1 / 1000000000) * max |a| |b|)

/-- The per-arrow collision test inside `_movement_find_y`:
`math.isclose(y, existing_y) and (x1 < existing_x2 or x2 > existing_x1)`. -/
def collides (x1 x2 y : ℚ) (a : Arrow) : Bool :=
  pyIsClose y a.y && (decide (x1 < a.x2) || decide (a.x1 < x2))

/-- Embedding of `_movement_find_y`: retry at `y + 0.5` while any placed
arrow collides, then record and return the chosen slot.  The fuel bounds
the recursion depth (Python's own recursion limit plays the same role). -/
def movement_find_y : Nat → List Arrow → ℚ → ℚ → ℚ → Option (ℚ × List Arrow)
  | 0, _, _, _, _ => none
  | fuel + 1, arrows, x1, x2, y =>
    if arrows.any (collides x1 x2 y) then movement_find_y fuel arrows x1 x2 (y + 1/2)
    else some (y, arrows ++ [⟨x1, x2, y⟩])

/-- Embedding of `box_constituent`: query the subtree bounds and append a
rectangle annotation; nothing else changes. -/
def box_constituent (st : LayoutState) (path : List Int) :
    Except LayoutErr LayoutState :=
  match subtree_bounds st path with
  | .error e => .error e
  | .ok b => .ok { st with annotations := st.annotations ++ [.rect b.x b.y b.w b.h] }

/-- Embedding of `underline_constituent`: append an underline and grow
`extra_y` if the line would be clipped
(`extra_y = max(extra_y, (y + height) + 0.5 - (em_height() - extra_y))`). -/
def underline_constituent (st : LayoutState) (path : List Int) :
    Except LayoutErr LayoutState :=
  match subtree_bounds st path with
  | .error e => .error e
  | .ok b =>
    .ok { st with
      extra_y := max st.extra_y ((b.y + b.h) + 1/2 - (em_height st - st.extra_y)),
      annotations := st.annotations ++ [.lineAnn b.x (b.y + b.h) (b.x + b.w) (b.y + b.h)] }

/-- Embedding of `movement_arrow`: find the arrow endpoints from the two
subtree bounds in user units, take the baseline below the deepest
intervening leaf, search for a free y slot starting 1.5 em below that
baseline, grow `extra_y` to cover the slot plus 0.5 em, and append the
arrow polyline and arrowhead. -/
def movement_arrow (st : LayoutState) (p1 p2 : List Int) :
    Except LayoutErr LayoutState :=
  match subtree_bounds_user st p1, subtree_bounds_user st p2 with
  | .ok b1, .ok b2 =>
    let n1_y := b1.y + b1.h
    let n1_x := b1.x + b1.w / 2
    let n2_y := b2.y + b2.h
    let n2_x := b2.x + b2.w / 2
    (match deepest_intervening_leaf st p1 p2 with
     | .error e => .error e
     | .ok y_depth =>
       let y_target_base := y_distance st 0 y_depth + st.level_heights.getD y_depth 0
       match movement_find_y (st.arrows.length + 1) st.arrows (min n1_x n2_x)
           (max n1_x n2_x) (y_target_base + 3/2) with
       | none => .error .internal
       | some yr =>
         let y_px := st.options.em_to_px yr.1
         let dy := st.options.em_to_px (9/20)
         .ok { st with
           extra_y := max st.extra_y (yr.1 - y_target_base + 1/2),
           arrows := yr.2,
           annotations := st.annotations ++
             [.poly [(n1_x, n1_y), (n1_x, y_px), (n2_x, y_px), (n2_x, n2_y + dy)],
              .poly [(n2_x + 3, n2_y + dy), (n2_x, n2_y), (n2_x - 3, n2_y + dy)]] })
  | .error e, _ => .error e
  | _, .error e => .error e

/-- The three public annotation calls. -/
inductive AnnCall where
  | box (path : List Int)
  | underline (path : List Int)
  | arrow (p1 p2 : List Int)

def applyAnn (st : LayoutState) : AnnCall → Except LayoutErr LayoutState
  | .box p => box_constituent st p
  | .underline p => underline_constituent st p
  | .arrow p1 p2 => movement_arrow st p1 p2

/-- A call-ordered sequence of annotation operations on one layout. -/
def runAnns (st : LayoutState) : List AnnCall → Except LayoutErr LayoutState
  | [] => .ok st
  | c :: cs => (applyAnn st c).bind (fun st2 => runAnns st2 cs)

/-! ## TreeOptions construction -/

/-- The recognized option keys of `_opt_defaults` with abstract default
values (the concrete defaults play no role in the validation logic;
distinct numeric codes stand in for them). -/
def opt_defaults : List (String × Nat) :=
  [("horiz_spacing", 0), ("vert_align", 1), ("leaf_padding", 2),
   ("distance_to_daughter", 3), ("debug", 4), ("leaf_edges", 5),
   ("leaf_nodes_align", 6), ("font_style", 7), ("average_glyph_width", 8),
   ("descend_direct", 9), ("relative_units", 10), ("font_size", 11),
   ("text_color", 12), ("text_stroke", 13), ("tree_split", 14)]

/-- Embedding of `TreeOptions.__init__`: collect every supplied key that
is not recognized; if any exist, fail with that list before any field is
assigned (the Python `raise` precedes the `setattr` loop); otherwise
assign the defaults overridden by the supplied values, so every
recognized key gets a value. -/
def tree_options_init (opts : List (String × Nat)) :
    Except (List String) (List (String × Nat)) :=
  let mismatch := (opts.map Prod.fst).filter (fun k => (opt_defaults.lookup k).isNone)
  if mismatch.isEmpty then
    .ok (opt_defaults.map (fun kv => (kv.1, (opts.lookup kv.1).getD kv.2)))
  else
    .error mismatch

/-! ## Tree shapes

The pure branching structure of a layout, used to state that the
normalization passes rewrite geometry but never the tree structure, and
that structure-only quantities (`leaf_nodecount`, `tree_depth`) are
preserved. -/

inductive Shp where
  | mk (children : List Shp)

mutual

def shapeOf : Layout → Shp
  | .mk _ cs => .mk (shapeOfL cs)

def shapeOfL : List Layout → List Shp
  | [] => []
  | c :: cs => shapeOf c :: shapeOfL cs

end

mutual

def shapeOfS : STree → Shp
  | .mk _ cs => .mk (shapeOfSL cs)

def shapeOfSL : List STree → List Shp
  | [] => []
  | c :: cs => shapeOfS c :: shapeOfSL cs

end

mutual

/-- `leaf_nodecount` as a function of the shape alone. -/
def lncS (o : Opts) : Shp → ℚ
  | .mk [] => 1 + o.leaf_padding
  | .mk (c :: cs) => lncSL o (c :: cs)

def lncSL (o : Opts) : List Shp → ℚ
  | [] => 0
  | c :: cs => lncS o c + lncSL o cs

end

mutual

/-- `tree_depth` as a function of the shape alone. -/
def heightShp : Shp → Nat
  | .mk cs => 1 + heightShpL cs

def heightShpL : List Shp → Nat
  | [] => 0
  | c :: cs => max (heightShp c) (heightShpL cs)

end

/-- Pure index-by-index descent through a layout (the value computed by a
successful `sublayout`, without the error bookkeeping). -/
def descend : Layout → List Int → Option Layout
  | t, [] => some t
  | t, c :: rest => (pyIdx t.children c).bind (fun ch => descend ch rest)

/-! ## Width invariants -/

mutual

/-- Every node box in the layout has width at least 1. -/
def allGe1 : Layout → Prop
  | .mk n cs => 1 ≤ n.width ∧ allGe1L cs

def allGe1L : List Layout → Prop
  | [] => True
  | c :: cs => allGe1 c ∧ allGe1L cs

end

mutual

/-- Width conservation: at every position with children, the children's
(percentage) widths sum to exactly 100 in the parent's own scale. -/
def goodW : Layout → Prop
  | .mk _ cs => (cs = [] ∨ sumWidths cs = 100) ∧ goodWL cs

def goodWL : List Layout → Prop
  | [] => True
  | c :: cs => goodW c ∧ goodWL cs

end

/-! ## Theorems -/

theorem node_mk (n : NodePos) (cs : List Layout) : (Layout.mk n cs).node = n := rfl

theorem children_mk (n : NodePos) (cs : List Layout) :
    (Layout.mk n cs).children = cs := rfl

/-- Sanity: `tree_parse` is the fold of `tree_split id`, exactly as in the
source (`n, children = tree_split(t); return (n,) + tuple(...)`). -/
theorem tree_parse_via_split (t : PyVal) :
    tree_parse t = .tup ((tree_split id t).1 :: tree_parse_list (tree_split id t).2) := by
  cases t with
  | str s => rfl
  | atom n => rfl
  | tup l => cases l <;> rfl
  | nltk l cs => cases cs <;> rfl

/-- Structural induction over `PyVal` with a membership hypothesis for the
nested child lists. -/
theorem pyval_ind {P : PyVal → Prop}
    (hstr : ∀ s, P (.str s)) (hatom : ∀ n, P (.atom n))
    (htup : ∀ l, (∀ c ∈ l, P c) → P (.tup l))
    (hnltk : ∀ a l, (∀ c ∈ l, P c) → P (.nltk a l)) (t : PyVal) : P t := by
  refine @PyVal.rec P (fun l => ∀ c ∈ l, P c) hstr (fun l ih => htup l ih)
    (fun a l _ ih => hnltk a l ih) hatom ?_ ?_ t
  · intro c hc
    exact absurd hc (List.not_mem_nil c)
  · intro h l ph pl c hc
    cases hc with
    | head => exact ph
    | tail _ hc => exact pl c hc

/-- Auxiliary: idempotence of `tree_parse_list` follows from pointwise
idempotence of `tree_parse` on the list members. -/
theorem tree_parse_list_idem (l : List PyVal)
    (h : ∀ c ∈ l, tree_parse (tree_parse c) = tree_parse c) :
    tree_parse_list (tree_parse_list l) = tree_parse_list l := by
  induction l with
  | nil => rfl
  | cons c cs ih =>
    rw [tree_parse_list, tree_parse_list, h c (by simp),
      ih (fun x hx => h x (by simp [hx]))]

/-- Structural induction over layouts with a membership hypothesis for the
nested child lists. -/
theorem layout_ind {P : Layout → Prop}
    (h : ∀ n cs, (∀ c ∈ cs, P c) → P (.mk n cs)) (t : Layout) : P t := by
  refine @Layout.rec P (fun l => ∀ c ∈ l, P c) (fun n cs ih => h n cs ih) ?_ ?_ t
  · intro c hc
    exact absurd hc (List.not_mem_nil c)
  · intro c cs pc pcs x hx
    cases hx with
    | head => exact pc
    | tail _ hx => exact pcs x hx

/-- Structural induction over input trees with a membership hypothesis for
the nested child lists. -/
theorem stree_ind {P : STree → Prop}
    (h : ∀ s cs, (∀ c ∈ cs, P c) → P (.mk s cs)) (t : STree) : P t := by
  refine @STree.rec P (fun l => ∀ c ∈ l, P c) (fun s cs ih => h s cs ih) ?_ ?_ t
  · intro c hc
    exact absurd hc (List.not_mem_nil c)
  · intro c cs pc pcs x hx
    cases hx with
    | head => exact pc
    | tail _ hx => exact pcs x hx

theorem layout_eta (t : Layout) : Layout.mk t.node t.children = t := by
  cases t
  rfl

theorem allGe1_mk (n : NodePos) (cs : List Layout) :
    allGe1 (.mk n cs) ↔ 1 ≤ n.width ∧ allGe1L cs := by
  simp [allGe1]

theorem allGe1L_iff (l : List Layout) : allGe1L l ↔ ∀ c ∈ l, allGe1 c := by
  induction l with
  | nil => simp [allGe1L]
  | cons c cs ih => simp [allGe1L, ih]

theorem goodW_mk (n : NodePos) (cs : List Layout) :
    goodW (.mk n cs) ↔ (cs = [] ∨ sumWidths cs = 100) ∧ goodWL cs := by
  simp [goodW]

theorem goodWL_iff (l : List Layout) : goodWL l ↔ ∀ c ∈ l, goodW c := by
  induction l with
  | nil => simp [goodWL]
  | cons c cs ih => simp [goodWL, ih]

theorem buildLL_eq_map (o : Opts) (td lv : Nat) (cs : List STree) :
    buildLL o td lv cs = cs.map (buildL o td lv) := by
  induction cs with
  | nil => simp [buildLL]
  | cons c cs ih => simp [buildLL, ih]

/-- Every node the sizing pass builds has width at least 1: the
`set_dimensions` clamp gives `orig_width = max(width, 1)` and a parent's
width only grows by taking the max with its children's sum. -/
theorem buildL_allGe1 (o : Opts) (td : Nat) (t : STree) :
    ∀ lv, allGe1 (buildL o td lv t) := by
  induction t using stree_ind with
  | h s cs ih =>
    intro lv
    simp only [buildL]
    refine (allGe1_mk _ _).2 ⟨?_, ?_⟩
    · exact le_trans (le_max_right (nodeWH o s).1 1) (le_max_left _ _)
    · rw [buildLL_eq_map, allGe1L_iff]
      intro c hc
      obtain ⟨c0, hc0, rfl⟩ := List.mem_map.1 hc
      exact ih c0 hc0 (lv + 1)

/-- `_normalize_widths` never rewrites the root node it is called on —
only the children's roots (the parent is rewritten by its own parent's
call, and the tree root is pinned beforehand in `_do_layout`). -/
theorem normalize_widths_node (o : Opts) (t : Layout) :
    (normalize_widths o t).node = t.node := by
  cases t with
  | mk p cs => cases cs <;> simp [normalize_widths, Layout.node]

theorem normalize_widths_list_eq_map (o : Opts) (cs : List Layout) :
    normalize_widths_list o cs = cs.map (normalize_widths o) := by
  induction cs with
  | nil => simp [normalize_widths_list]
  | cons c cs ih => simp [normalize_widths_list, ih]

theorem sumWidths_map_norm (o : Opts) (cs : List Layout) :
    sumWidths (cs.map (normalize_widths o)) = sumWidths cs := by
  rw [sumWidths, sumWidths, List.map_map]
  congr 1
  apply List.map_congr_left
  intro c _
  simp [Function.comp, normalize_widths_node]

theorem assign_widths_widths (S E : ℚ) : ∀ (ws : List ℚ) (cs : List Layout) (x : ℚ),
    ws.length = cs.length →
    (assign_widths S E x ws cs).map (fun c => c.node.width) =
      ws.map (fun w => w * 100 / S) := by
  intro ws
  induction ws with
  | nil =>
    intro cs x h
    simp [assign_widths]
  | cons w ws ih =>
    intro cs x h
    cases cs with
    | nil => simp at h
    | cons c cs =>
      simp only [assign_widths, List.map_cons, node_mk]
      rw [ih cs _ (by simpa using h)]

theorem assign_widths_inners (S E : ℚ) : ∀ (ws : List ℚ) (cs : List Layout) (x : ℚ),
    ws.length = cs.length →
    (assign_widths S E x ws cs).map (fun c => c.node.inner_width) =
      cs.map (fun c => c.node.inner_width * 100 / E) := by
  intro ws
  induction ws with
  | nil =>
    intro cs x h
    rw [List.length_nil] at h
    cases cs with
    | nil => simp [assign_widths]
    | cons c cs => simp at h
  | cons w ws ih =>
    intro cs x h
    cases cs with
    | nil => simp at h
    | cons c cs =>
      simp only [assign_widths, List.map_cons, node_mk]
      rw [ih cs _ (by simpa using h)]

theorem assign_widths_children (S E : ℚ) : ∀ (ws : List ℚ) (cs : List Layout) (x : ℚ),
    ws.length = cs.length →
    (assign_widths S E x ws cs).map Layout.children = cs.map Layout.children := by
  intro ws
  induction ws with
  | nil =>
    intro cs x h
    rw [List.length_nil] at h
    cases cs with
    | nil => simp [assign_widths]
    | cons c cs => simp at h
  | cons w ws ih =>
    intro cs x h
    cases cs with
    | nil => simp at h
    | cons c cs =>
      simp only [assign_widths, List.map_cons, children_mk]
      rw [ih cs _ (by simpa using h)]

theorem assign_widths_length (S E : ℚ) : ∀ (ws : List ℚ) (cs : List Layout) (x : ℚ),
    ws.length = cs.length → (assign_widths S E x ws cs).length = cs.length := by
  intro ws cs x h
  have := congrArg List.length (assign_widths_children S E ws cs x h)
  simpa using this

theorem sum_map_mul_div (l : List ℚ) (b : ℚ) :
    (l.map (fun w => w * 100 / b)).sum = l.sum * 100 / b := by
  induction l with
  | nil => simp
  | cons x xs ih =>
    simp only [List.map_cons, List.sum_cons, ih]
    ring

theorem shapeOfL_eq_map (cs : List Layout) : shapeOfL cs = cs.map shapeOf := by
  induction cs with
  | nil => simp [shapeOfL]
  | cons c cs ih => simp [shapeOfL, ih]

theorem shapeOfSL_eq_map (cs : List STree) : shapeOfSL cs = cs.map shapeOfS := by
  induction cs with
  | nil => simp [shapeOfSL]
  | cons c cs ih => simp [shapeOfSL, ih]

theorem shapeOf_mk (n : NodePos) (cs : List Layout) :
    shapeOf (.mk n cs) = .mk (shapeOfL cs) := by
  simp [shapeOf]

theorem heightS_shape (t : STree) : heightS t = heightShp (shapeOfS t) := by
  induction t using stree_ind with
  | h s cs ih =>
    have hl : ∀ l : List STree, (∀ c ∈ l, heightS c = heightShp (shapeOfS c)) →
        heightSL l = heightShpL (shapeOfSL l) := by
      intro l
      induction l with
      | nil => intro _; simp [heightSL, shapeOfSL, heightShpL]
      | cons a as iha =>
        intro hx
        simp only [heightSL, shapeOfSL, heightShpL]
        rw [hx a (by simp), iha (fun x hm => hx x (by simp [hm]))]
    simp only [heightS, shapeOfS, heightShp]
    rw [hl cs ih]

/-- The sizing pass builds one `NodePos` per input node: the layout has
the input tree's shape. -/
theorem shape_build (o : Opts) (td : Nat) (t : STree) :
    ∀ lv, shapeOf (buildL o td lv t) = shapeOfS t := by
  induction t using stree_ind with
  | h s cs ih =>
    intro lv
    simp only [buildL, shapeOf_mk, shapeOfS]
    congr 1
    rw [buildLL_eq_map, shapeOfL_eq_map, shapeOfSL_eq_map, List.map_map]
    apply List.map_congr_left
    intro c hc
    exact ih c hc (lv + 1)

theorem shape_assign (S E : ℚ) : ∀ (ws : List ℚ) (cs : List Layout) (x : ℚ),
    ws.length = cs.length → shapeOfL (assign_widths S E x ws cs) = shapeOfL cs := by
  intro ws
  induction ws with
  | nil =>
    intro cs x h
    rw [List.length_nil] at h
    cases cs with
    | nil => simp [assign_widths]
    | cons c cs => simp at h
  | cons w ws ih =>
    intro cs x h
    cases cs with
    | nil => simp at h
    | cons c cs =>
      simp only [assign_widths, shapeOfL]
      rw [ih cs _ (by simpa using h)]
      congr 1
      rw [shapeOf_mk, ← shapeOf_mk c.node, layout_eta]

/-- `_normalize_widths` rewrites geometry only: the tree shape is
untouched. -/
theorem shape_norm (o : Opts) (t : Layout) :
    shapeOf (normalize_widths o t) = shapeOf t := by
  induction t using layout_ind with
  | h p cs ih =>
    cases cs with
    | nil => simp [normalize_widths]
    | cons c cs' =>
      simp only [normalize_widths]
      rw [shapeOf_mk, shapeOf_mk]
      congr 1
      rw [shape_assign _ _ _ _ _ (List.length_map _ _)]
      rw [normalize_widths_list_eq_map, shapeOfL_eq_map, shapeOfL_eq_map, List.map_map]
      apply List.map_congr_left
      intro x hx
      exact ih x hx

theorem normalize_y_list_eq_map (o : Opts) (lh : List ℚ) (cs : List Layout) :
    normalize_y_list o lh cs = cs.map (normalize_y o lh) := by
  induction cs with
  | nil => simp [normalize_y_list]
  | cons c cs ih => simp [normalize_y_list, ih]

/-- `_normalize_y` rewrites geometry only: the tree shape is untouched. -/
theorem shape_normY (o : Opts) (lh : List ℚ) (t : Layout) :
    shapeOf (normalize_y o lh t) = shapeOf t := by
  induction t using layout_ind with
  | h p cs ih =>
    simp only [normalize_y]
    rw [shapeOf_mk, shapeOf_mk]
    congr 1
    rw [normalize_y_list_eq_map, shapeOfL_eq_map, shapeOfL_eq_map, List.map_map]
    apply List.map_congr_left
    intro x hx
    exact ih x hx

theorem leaf_nodecount_shape (o : Opts) (t : Layout) :
    leaf_nodecount o t = lncS o (shapeOf t) := by
  induction t using layout_ind with
  | h n cs ih =>
    have hl : ∀ l : List Layout, (∀ x ∈ l, leaf_nodecount o x = lncS o (shapeOf x)) →
        leaf_nodecountL o l = lncSL o (shapeOfL l) := by
      intro l
      induction l with
      | nil => intro _; simp [leaf_nodecountL, shapeOfL, lncSL]
      | cons a as iha =>
        intro hx
        simp only [leaf_nodecountL, shapeOfL, lncSL]
        rw [hx a (by simp), iha (fun x hm => hx x (by simp [hm]))]
    cases cs with
    | nil => simp [leaf_nodecount, shapeOf, shapeOfL, lncS]
    | cons c cs' =>
      rw [shapeOf_mk]
      have h2 := hl (c :: cs') ih
      rw [shapeOfL] at h2
      simp only [leaf_nodecount, lncS]
      exact h2

theorem leaf_nodecount_norm (o : Opts) (t : Layout) :
    leaf_nodecount o (normalize_widths o t) = leaf_nodecount o t := by
  rw [leaf_nodecount_shape, leaf_nodecount_shape, shape_norm]

theorem sublayout_width_norm (o : Opts) (t : Layout) :
    sublayout_width o (normalize_widths o t) = sublayout_width o t := by
  cases h : o.horiz_spacing <;>
    simp [sublayout_width, h, normalize_widths_node, leaf_nodecount_norm]

theorem map_subW_norm (o : Opts) (cs : List Layout) :
    (cs.map (normalize_widths o)).map (sublayout_width o) = cs.map (sublayout_width o) := by
  rw [List.map_map]
  exact List.map_congr_left fun c _ => sublayout_width_norm o c

/-- Unfolding of `_normalize_widths` at a node with children, with the
recursion already pushed into the children. -/
theorem normalize_widths_cons (o : Opts) (p : NodePos) (c : Layout) (cs : List Layout) :
    normalize_widths o (.mk p (c :: cs)) =
      .mk p (assign_widths
        (((c :: cs).map (normalize_widths o)).map (sublayout_width o)).sum
        (if sumWidths ((c :: cs).map (normalize_widths o)) < p.inner_width
          then p.inner_width
          else sumWidths ((c :: cs).map (normalize_widths o)))
        0
        (((c :: cs).map (normalize_widths o)).map (sublayout_width o))
        ((c :: cs).map (normalize_widths o))) := by
  simp only [normalize_widths, normalize_widths_list_eq_map]

/-- The same unfolding with the spacing-scheme weights and the em sum
rewritten through the invariance of both under the recursion on the
children. -/
theorem normalize_widths_cons_clean (o : Opts) (p : NodePos) (c : Layout)
    (cs : List Layout) :
    normalize_widths o (.mk p (c :: cs)) =
      .mk p (assign_widths
        ((c :: cs).map (sublayout_width o)).sum
        (if sumWidths (c :: cs) < p.inner_width then p.inner_width
          else sumWidths (c :: cs))
        0
        ((c :: cs).map (sublayout_width o))
        ((c :: cs).map (normalize_widths o))) := by
  rw [normalize_widths_cons, sumWidths_map_norm, map_subW_norm]

theorem leaf_nodecountL_nonneg (o : Opts) :
    ∀ l : List Layout, (∀ x ∈ l, 0 < leaf_nodecount o x) → 0 ≤ leaf_nodecountL o l := by
  intro l
  induction l with
  | nil => intro _; simp [leaf_nodecountL]
  | cons a as ih =>
    intro hx
    have h1 := hx a (by simp)
    have h2 := ih (fun x hm => hx x (by simp [hm]))
    simp only [leaf_nodecountL]
    linarith

/-- With a sane leaf padding (`1 + leaf_padding > 0`), the padded leaf
count of any sublayout is positive. -/
theorem leaf_nodecount_pos (o : Opts) (hlp : 0 < 1 + o.leaf_padding) (t : Layout) :
    0 < leaf_nodecount o t := by
  induction t using layout_ind with
  | h n cs ih =>
    cases cs with
    | nil => simpa [leaf_nodecount] using hlp
    | cons c cs' =>
      have h1 := ih c (by simp)
      have h2 := leaf_nodecountL_nonneg o cs' (fun x hm => ih x (by simp [hm]))
      simp only [leaf_nodecount, leaf_nodecountL]
      linarith

/-- Every spacing scheme gives each sublayout a positive weight, as long
as its em widths are at least 1 and the leaf padding is sane. -/
theorem sublayout_width_pos (o : Opts) (hlp : 0 < 1 + o.leaf_padding) (t : Layout)
    (ht : allGe1 t) : 0 < sublayout_width o t := by
  cases h : o.horiz_spacing with
  | TEXT =>
    have : 1 ≤ t.node.width := by
      cases t with
      | mk n cs => exact ((allGe1_mk n cs).1 ht).1
    simp only [sublayout_width, h]
    linarith
  | NODES =>
    simp only [sublayout_width, h]
    exact leaf_nodecount_pos o hlp t
  | EVEN =>
    simp only [sublayout_width, h]
    norm_num

theorem assign_widths_goodWL (S E : ℚ) : ∀ (ws : List ℚ) (cs : List Layout) (x : ℚ),
    ws.length = cs.length → (∀ c ∈ cs, goodW c) →
    goodWL (assign_widths S E x ws cs) := by
  intro ws
  induction ws with
  | nil =>
    intro cs x h _
    rw [List.length_nil] at h
    cases cs with
    | nil => simp [assign_widths, goodWL]
    | cons c cs => simp at h
  | cons w ws ih =>
    intro cs x h hg
    cases cs with
    | nil => simp at h
    | cons c cs =>
      simp only [assign_widths, goodWL]
      constructor
      · have hgc := hg c (by simp)
        have h1 := (goodW_mk c.node c.children).1 (by rw [layout_eta]; exact hgc)
        exact (goodW_mk _ _).2 h1
      · exact ih cs _ (by simpa using h) (fun y hy => hg y (by simp [hy]))

/-- Core of C1: normalizing a layout whose widths are all at least 1
yields width conservation at every node with children. -/
theorem goodW_norm (o : Opts) (hlp : 0 < 1 + o.leaf_padding) (t : Layout)
    (h1 : allGe1 t) : goodW (normalize_widths o t) := by
  induction t using layout_ind with
  | h p cs ih =>
    cases cs with
    | nil =>
      simp only [normalize_widths]
      exact (goodW_mk _ _).2 ⟨Or.inl rfl, by simp [goodWL]⟩
    | cons c cs' =>
      rw [normalize_widths_cons_clean]
      have hmem : ∀ x ∈ c :: cs', allGe1 x :=
        (allGe1L_iff _).1 ((allGe1_mk p (c :: cs')).1 h1).2
      have hS : 0 < ((c :: cs').map (sublayout_width o)).sum := by
        apply List.sum_pos
        · intro w hw
          obtain ⟨x, hx, rfl⟩ := List.mem_map.1 hw
          exact sublayout_width_pos o hlp x (hmem x hx)
        · simp
      refine (goodW_mk _ _).2 ⟨Or.inr ?_, ?_⟩
      · rw [sumWidths, assign_widths_widths _ _ _ _ _ (by simp), sum_map_mul_div]
        exact mul_div_cancel_left₀ 100 (ne_of_gt hS)
      · apply assign_widths_goodWL _ _ _ _ _ (by simp)
        intro x hx
        obtain ⟨x0, hx0, rfl⟩ := List.mem_map.1 hx
        exact ih x0 hx0 (hmem x0 hx0)

theorem normalize_y_node_width (o : Opts) (lh : List ℚ) (t : Layout) :
    (normalize_y o lh t).node.width = t.node.width := by
  cases t with
  | mk p cs => simp [normalize_y, node_mk, Layout.node]

theorem sumWidths_map_normY (o : Opts) (lh : List ℚ) (cs : List Layout) :
    sumWidths (cs.map (normalize_y o lh)) = sumWidths cs := by
  rw [sumWidths, sumWidths, List.map_map]
  congr 1
  apply List.map_congr_left
  intro c _
  exact normalize_y_node_width o lh c

/-- The vertical pass preserves width conservation: it only rewrites
heights and y dodges. -/
theorem goodW_normY (o : Opts) (lh : List ℚ) (t : Layout) (h : goodW t) :
    goodW (normalize_y o lh t) := by
  induction t using layout_ind with
  | h p cs ih =>
    simp only [normalize_y]
    rw [normalize_y_list_eq_map]
    refine (goodW_mk _ _).2 ⟨?_, ?_⟩
    · rcases ((goodW_mk p cs).1 h).1 with hnil | hsum
      · subst hnil
        exact Or.inl rfl
      · exact Or.inr (by rw [sumWidths_map_normY]; exact hsum)
    · refine (goodWL_iff _).2 ?_
      intro k hk
      obtain ⟨x, hx, rfl⟩ := List.mem_map.1 hk
      exact ih x hx ((goodWL_iff _).1 ((goodW_mk p cs).1 h).2 x hx)

/-- C1: for every tree, after the width-normalization pass the root node
has width exactly 100, and at every node with at least one child the
children's width percentages sum exactly to 100 in the parent's own
scale, under every horizontal spacing mode (the only proviso is the sane
leaf padding `1 + leaf_padding > 0`, satisfied by the default 2, which
keeps the `NODES` weights from degenerating). -/
theorem c1_root_width_and_conservation (o : Opts) (t : STree)
    (hlp : 0 < 1 + o.leaf_padding) :
    (mkLayout o t).layout.node.width = 100 ∧ goodW (mkLayout o t).layout := by
  have hbuilt := buildL_allGe1 o (heightS t - 1) t 0
  set built := buildL o (heightS t - 1) (0 : Nat) t with hb
  have hroot : allGe1 (Layout.mk { built.node with width := 100, x := 0 } built.children) := by
    refine (allGe1_mk _ _).2 ⟨by norm_num, ?_⟩
    have := (allGe1_mk built.node built.children).1 (by rw [layout_eta]; exact hbuilt)
    exact this.2
  constructor
  · show (normalize_y _ _ (normalize_widths o _)).node.width = 100
    rw [normalize_y_node_width, normalize_widths_node, node_mk]
  · show goodW (normalize_y _ _ (normalize_widths o _))
    exact goodW_normY _ _ _ (goodW_norm o hlp _ hroot)

/-- Witness for C1 at a concrete input: the two-leaf tree under default
(TEXT) options. -/
theorem c1_root_width_and_conservation_witness :
    (0 : ℚ) < 1 + defaultOpts.leaf_padding ∧
    (mkLayout defaultOpts (.mk "X" [.mk "a" [], .mk "b" []])).layout.node.width = 100 := by
  refine ⟨by norm_num [defaultOpts], ?_⟩
  exact (c1_root_width_and_conservation defaultOpts _ (by norm_num [defaultOpts])).1

/-- C2 (amended): when the children's intrinsic em widths sum to less
than the parent's own label width (`inner_width`), the parent's label
width is substituted as the normalization denominator for the children's
`inner_width` percentages only; the children's `width` percentages are
always computed against the spacing-scheme sum `sub_sum`, never against
the substituted denominator. -/
theorem c2_parent_label_denominator (o : Opts) (p : NodePos) (c : Layout)
    (cs : List Layout) (hlt : sumWidths (c :: cs) < p.inner_width) :
    ((normalize_widths o (.mk p (c :: cs))).children.map (fun k => k.node.inner_width)) =
      (c :: cs).map (fun k => k.node.inner_width * 100 / p.inner_width) ∧
    ((normalize_widths o (.mk p (c :: cs))).children.map (fun k => k.node.width)) =
      ((c :: cs).map (sublayout_width o)).map
        (fun w => w * 100 / ((c :: cs).map (sublayout_width o)).sum) := by
  rw [normalize_widths_cons_clean, children_mk, if_pos hlt]
  constructor
  · rw [assign_widths_inners _ _ _ _ _ (by simp), List.map_map]
    apply List.map_congr_left
    intro k _
    show (normalize_widths o k).node.inner_width * 100 / p.inner_width = _
    rw [normalize_widths_node]
  · rw [assign_widths_widths _ _ _ _ _ (by simp)]

def c2p : NodePos := ⟨50, 0, 6, 6, 1, 0⟩

def c2c : Layout := .mk ⟨50, 0, 3/2, 3/2, 1, 1⟩ []

/-- Witness for C2 (amended) at a concrete input: a parent of label width
6 over a single child of width 1.5 — the child's `inner_width` share is
taken out of 6, its `width` share out of the scheme sum 1.5. -/
theorem c2_parent_label_denominator_witness :
    sumWidths [c2c] < c2p.inner_width ∧
    ((normalize_widths defaultOpts (.mk c2p [c2c])).children.map
      (fun k => k.node.inner_width)) =
      [c2c].map (fun k => k.node.inner_width * 100 / c2p.inner_width) := by
  have hlt : sumWidths [c2c] < c2p.inner_width := by
    norm_num [sumWidths, c2c, c2p, node_mk]
  exact ⟨hlt, (c2_parent_label_denominator defaultOpts c2p c2c [] hlt).1⟩

/-- Counterexample for C2 as stated: a 10-character parent label over a
single 1-character child.  The child's intrinsic width 1.5 is below the
parent's label width 6, yet its final `width` is `1.5·100/1.5 = 100`, not
the `1.5·100/6 = 25` the claim's substituted denominator would give; the
substitution lands on `inner_width` instead. -/
theorem c2_parent_label_denominator_counterexample :
    ((mkLayout defaultOpts (.mk "aaaaaaaaaa" [.mk "a" []])).layout.children.map
      (fun k => k.node.width)) = [100] ∧
    ((mkLayout defaultOpts (.mk "aaaaaaaaaa" [.mk "a" []])).layout.children.map
      (fun k => k.node.inner_width)) = [25] ∧
    (3/2 : ℚ) * 100 / 6 = 25 ∧ (100 : ℚ) ≠ 25 := by
  have h1 : (lineSplit ("aaaaaaaaaa".data)).map List.length = [10] := rfl
  have h2 : (lineSplit ("a".data)).map List.length = [1] := rfl
  have h3 : ("aaaaaaaaaa" : String).length = 10 := rfl
  have h4 : ("a" : String).length = 1 := rfl
  norm_num [mkLayout, heightS, heightSL, buildL, buildLL, nodeWH, h1, h2, h3, h4,
    pyMax, label_width_len, Opts.label_width, defaultOpts, sumWidths,
    normalize_widths, normalize_widths_list, assign_widths, sublayout_width,
    leaf_nodecount, normalize_y, normalize_y_list, label_y_dodge_top,
    max_height_at, max_height_at_list, max_def, min_def,
    Layout.node, Layout.children, List.foldl]

/-- C3 (amended): every node box coming out of the sizing pass has em
width at least 1 — `set_dimensions` clamps to `max(width, 1)` and a
parent's width only grows by maxing with its children's sum — but the
width-normalization pass converts widths to percentage shares that can
drop below 1 (see the counterexample), so the invariant does not survive
normalization. -/
theorem c3_em_width_at_least_one (o : Opts) (td lv : Nat) (t : STree) :
    allGe1 (buildL o td lv t) :=
  buildL_allGe1 o td t lv

/-- Even spacing options for the C3 counterexample. -/
def evenOpts : Opts :=
  { defaultOpts with horiz_spacing := .EVEN }

set_option maxRecDepth 8000 in
set_option maxHeartbeats 3000000 in
/-- Counterexample for C3 as stated: under EVEN spacing, each of 101
sister leaves receives the percentage width `100/101 < 1` after
normalization. -/
theorem c3_em_width_at_least_one_counterexample :
    ((mkLayout evenOpts
      (.mk "X" (List.replicate 101 (.mk "a" [])))).layout.children.map
      (fun k => k.node.width)).head? = some (100/101) ∧ (100/101 : ℚ) < 1 := by
  have h2 : (lineSplit ("a".data)).map List.length = [1] := rfl
  have h4 : ("a" : String).length = 1 := rfl
  have h5 : ("X" : String).length = 1 := rfl
  have h6 : (lineSplit ("X".data)).map List.length = [1] := rfl
  norm_num [mkLayout, heightS, heightSL, buildL, buildLL, nodeWH, h2, h4, h5, h6,
    pyMax, label_width_len, Opts.label_width, defaultOpts, evenOpts, sumWidths,
    normalize_widths, normalize_widths_list, assign_widths, sublayout_width,
    leaf_nodecount, normalize_y, normalize_y_list, label_y_dodge_top,
    max_height_at, max_height_at_list, max_def, min_def, List.replicate,
    Layout.node, Layout.children, List.foldl]

/-- Helper: mapping an assoc list through a key-preserving function keeps
every key present. -/
theorem lookup_map_pair_isSome (l : List (String × Nat)) (g : String × Nat → Nat)
    (k : String) (hk : k ∈ l.map Prod.fst) :
    ((l.map (fun kv => (kv.1, g kv))).lookup k).isSome := by
  induction l with
  | nil => simp at hk
  | cons kv l ih =>
    by_cases h : k = kv.1
    · simp [List.lookup, h]
    · have : k ∈ l.map Prod.fst := by
        simp only [List.map_cons, List.mem_cons] at hk
        exact hk.resolve_left h
      simpa [List.lookup, beq_false_of_ne h] using ih this

/-- Helper: a key the overrides do not mention keeps its default value
after the `fullopts.update(opts)` merge. -/
theorem lookup_map_pair_default (l : List (String × Nat)) (opts : List (String × Nat))
    (k : String) (hk : opts.lookup k = none) :
    ((l.map (fun kv => (kv.1, (opts.lookup kv.1).getD kv.2))).lookup k) = l.lookup k := by
  induction l with
  | nil => rfl
  | cons kv l ih =>
    by_cases h : k = kv.1
    · subst h
      simp [List.lookup, hk]
    · simpa [List.lookup, beq_false_of_ne h] using ih

/-- Helper: a key the overrides mention takes the supplied value after the
merge, provided the key is recognized. -/
theorem lookup_map_pair_override (l : List (String × Nat)) (opts : List (String × Nat))
    (k : String) (v : Nat) (hv : opts.lookup k = some v) (hk : k ∈ l.map Prod.fst) :
    ((l.map (fun kv => (kv.1, (opts.lookup kv.1).getD kv.2))).lookup k) = some v := by
  induction l with
  | nil => simp at hk
  | cons kv l ih =>
    by_cases h : k = kv.1
    · subst h
      simp [List.lookup, hv]
    · have : k ∈ l.map Prod.fst := by
        simp only [List.map_cons, List.mem_cons] at hk
        exact hk.resolve_left h
      simpa [List.lookup, beq_false_of_ne h] using ih this

/-- C4: constructing `TreeOptions` with unknown option keys fails with an
error naming every unknown key, before any option field is applied (the
result carries no fields at all); with no unknown keys construction
succeeds and every recognized option has a value — the default when the
key was not supplied, the supplied value otherwise. -/
theorem c4_unknown_options (opts : List (String × Nat)) (m : List String)
    (hm : m = (opts.map Prod.fst).filter (fun k => (opt_defaults.lookup k).isNone)) :
    (m ≠ [] → tree_options_init opts = .error m ∧
      ∀ k ∈ opts.map Prod.fst, opt_defaults.lookup k = none → k ∈ m) ∧
    (m = [] →
      tree_options_init opts =
        .ok (opt_defaults.map (fun kv => (kv.1, (opts.lookup kv.1).getD kv.2))) ∧
      (∀ k ∈ opt_defaults.map Prod.fst,
        ((opt_defaults.map (fun kv => (kv.1, (opts.lookup kv.1).getD kv.2))).lookup k).isSome) ∧
      (∀ k, opts.lookup k = none →
        (opt_defaults.map (fun kv => (kv.1, (opts.lookup kv.1).getD kv.2))).lookup k =
          opt_defaults.lookup k) ∧
      (∀ k v, opts.lookup k = some v → k ∈ opt_defaults.map Prod.fst →
        (opt_defaults.map (fun kv => (kv.1, (opts.lookup kv.1).getD kv.2))).lookup k =
          some v)) := by
  constructor
  · intro hne
    constructor
    · rw [tree_options_init, ← hm, if_neg (by simpa using hne)]
    · intro k hk hnone
      rw [hm]
      exact List.mem_filter.2 ⟨hk, by simp [hnone]⟩
  · intro hz
    refine ⟨?_, fun k hk => lookup_map_pair_isSome _ _ k hk,
      fun k hk => lookup_map_pair_default _ _ k hk,
      fun k v hv hk => lookup_map_pair_override _ _ k v hv hk⟩
    rw [tree_options_init, ← hm, hz]
    rfl

/-- Witness for C4 at concrete inputs: two unknown keys are reported
together, and a construction supplying only `debug` succeeds with every
field filled. -/
theorem c4_unknown_options_witness :
    tree_options_init [("bogus", 0), ("fake", 1)] = .error ["bogus", "fake"] ∧
    tree_options_init [("debug", 7)] =
      .ok (opt_defaults.map (fun kv => (kv.1, ([("debug", 7)].lookup kv.1).getD kv.2))) := by
  constructor
  · exact ((c4_unknown_options [("bogus", 0), ("fake", 1)] ["bogus", "fake"]
      (by decide)).1 (by decide)).1
  · exact ((c4_unknown_options [("debug", 7)] [] (by decide)).2 rfl).1

/-- Helper: traversing a path that extends a valid prefix with an invalid
index fails exactly at that index, for both the iterator and the
positional lookup. -/
theorem traversal_error_at (c : Int) (suf : List Int) :
    ∀ (pre : List Int) (t : Layout) (i : Nat) (tp : Layout),
      sublayoutGo t i pre = .ok tp → pyIdx tp.children c = none →
      layoutIterGo t (pre ++ c :: suf) i = .error (.path (i + pre.length) c) ∧
      sublayoutGo t i (pre ++ c :: suf) = .error (.path (i + pre.length) c) := by
  intro pre
  induction pre with
  | nil =>
    intro t i tp hok hc
    cases hok
    simp [layoutIterGo, sublayoutGo, hc]
  | cons a rest ih =>
    intro t i tp hok hc
    rw [sublayoutGo] at hok
    cases hch : pyIdx t.children a with
    | none => rw [hch] at hok; exact absurd hok (by simp)
    | some ch =>
      rw [hch] at hok
      have h := ih ch (i + 1) tp hok hc
      have harith : i + 1 + rest.length = i + (rest.length + 1) := by omega
      constructor
      · simp only [List.cons_append, layoutIterGo, hch, List.append_eq, h.1,
          List.length_cons, harith]
        rfl
      · simp only [List.cons_append, sublayoutGo, hch, List.append_eq, h.2,
          List.length_cons, harith]

/-- C5: looking up a path with an out-of-range index fails with an error
identifying the first invalid index and its position in the path —
traversal stops there — and `subtree_bounds` over the same path surfaces
the same error instead of clamping or succeeding. -/
theorem c5_invalid_path (st : LayoutState) (pre : List Int) (c : Int) (suf : List Int)
    (tp : Layout) (hpre : sublayout st pre = .ok tp)
    (hc : pyIdx tp.children c = none) :
    layout_iter st (pre ++ c :: suf) = .error (.path pre.length c) ∧
    subtree_bounds st (pre ++ c :: suf) = .error (.path pre.length c) := by
  have h := traversal_error_at c suf pre st.layout 0 tp hpre hc
  simp only [Nat.zero_add] at h
  refine ⟨h.1, ?_⟩
  simp only [subtree_bounds, sublayout, h.2]

/-- Concrete witness state for the traversal claims: a two-leaf layout
with integral geometry. -/
def wNode (w : ℚ) (d : Nat) : NodePos :=
  ⟨0, 0, w, w, 1, d⟩

def wLayout : Layout :=
  .mk (wNode 100 0) [.mk (wNode 50 1) [], .mk (wNode 50 1) []]

def wState : LayoutState :=
  ⟨defaultOpts, wLayout, 1, [1, 1], [0, 3], 3, 1/2, [], []⟩

/-- Witness for C5: on the concrete two-leaf layout, the path `[0, 5]` has
its first invalid index 5 at position 1, and both the iterator and the
bounding-box query report exactly that. -/
theorem c5_invalid_path_witness :
    layout_iter wState [0, 5] = .error (.path 1 5) ∧
    subtree_bounds wState [0, 5] = .error (.path 1 5) := by
  have h := c5_invalid_path wState [0] 5 [] (.mk (wNode 50 1) []) rfl rfl
  exact h

/-- C6 (amended): a negative path index `i` with `-count ≤ i < 0` is
resolved to the position `count + i`, which equals `i` modulo the child
count, in ordinary path lookup, and such a lookup never fails; an index
below `-count` is *not* reduced modulo the count there (see the
counterexample).  Only `set_edge_style` reduces its final daughter index
fully modulo the child count, so there any negative daughter index
resolves without failing. -/
theorem c6_negative_indices :
    (∀ (l : List Layout) (i : Int), -(l.length : Int) ≤ i → i < 0 →
      pyIdx l i = l.get? (i % (l.length : Int)).toNat ∧ (pyIdx l i).isSome) ∧
    (∀ (st : LayoutState) (path : List Int) (d : Int) (tp : Layout),
      sublayout st path = .ok tp → tp.children ≠ [] → d < 0 →
      set_edge_style_daughter st (path ++ [d]) =
        .ok (some (d % (tp.children.length : Int)).toNat)) := by
  constructor
  · intro l i hlow hneg
    have hlen : 0 < l.length := by
      rcases Nat.eq_zero_or_pos l.length with h | h
      · rw [h] at hlow; omega
      · exact h
    have hmod : i % (l.length : Int) = (l.length : Int) + i := by
      conv_lhs => rw [show i = (l.length : Int) + i + (l.length : Int) * (-1) by ring]
      rw [Int.add_mul_emod_self_left, Int.emod_eq_of_lt (by omega) (by omega)]
    have harith : ((l.length : Int) + i).toNat < l.length := by omega
    constructor
    · rw [pyIdx, if_neg (by omega), if_pos (by omega), hmod]
    · rw [pyIdx, if_neg (by omega), if_pos (by omega)]
      exact Option.isSome_iff_exists.2 ⟨_, List.get?_eq_get harith⟩
  · intro st path d tp hok hne hneg
    rw [set_edge_style_daughter, List.getLast?_concat, List.dropLast_concat]
    show Except.bind (sublayout st path) _ = _
    rw [hok]
    have hlen : 0 < tp.children.length := List.length_pos.2 hne
    show Except.bind (Except.ok tp) _ = _
    simp only [Except.bind]
    rw [if_neg (by omega), if_neg (by omega)]
    rfl

/-- Witness for C6 (amended) on the concrete two-leaf layout: index `-1`
resolves to position 1 (its residue mod 2), and `set_edge_style` with
daughter `-3` resolves to daughter 1 without failing. -/
theorem c6_negative_indices_witness :
    pyIdx wLayout.children (-1) = wLayout.children.get? 1 ∧
    set_edge_style_daughter wState [(-3 : Int)] = .ok (some 1) := by
  constructor
  · have h := (c6_negative_indices.1 wLayout.children (-1) (by decide) (by decide)).1
    exact h
  · have h := c6_negative_indices.2 wState [] (-3) wLayout rfl
      (by simp [wLayout, Layout.children]) (by decide)
    exact h

/-- Counterexample for C6 as stated: on the two-leaf layout, the path
index `-3` has residue `1` modulo the child count 2, which is in range,
yet path lookup raises instead of resolving it. -/
theorem c6_negative_indices_counterexample :
    layout_iter wState [-3] = .error (.path 0 (-3)) ∧
    ((-3 : Int) % 2).toNat = 1 ∧ 1 < wLayout.children.length := by
  refine ⟨rfl, by decide, by decide⟩

theorem pyIdx_mem {α : Type} {l : List α} {i : Int} {x : α}
    (h : pyIdx l i = some x) : x ∈ l := by
  rw [pyIdx] at h
  split at h
  · exact List.get?_mem h
  · split at h
    · exact List.get?_mem h
    · exact absurd h (by simp)

/-- For daughter index 0 or -1, Python indexing fails exactly on an empty
child list. -/
theorem pyIdx_zero_neg_one_none {α : Type} (l : List α) (n : Int)
    (hn : n = 0 ∨ n = -1) : pyIdx l n = none ↔ l = [] := by
  rcases hn with rfl | rfl
  · cases l with
    | nil => simp [pyIdx]
    | cons a as => simp [pyIdx]
  · cases l with
    | nil => simp [pyIdx]
    | cons a as =>
      rw [pyIdx, if_neg (by omega)]
      have hc : (0 : Int) ≤ ((a :: as).length : Int) + (-1) := by
        simp only [List.length_cons]
        omega
      rw [if_pos hc]
      have ht : (((a :: as).length : Int) + (-1)).toNat = as.length := by
        simp only [List.length_cons]
        omega
      rw [ht]
      constructor
      · intro h
        rw [List.get?_eq_none] at h
        simp only [List.length_cons] at h
        omega
      · intro h
        exact absurd h (by simp)

theorem heightShpL_ge {s : Shp} : ∀ {l : List Shp}, s ∈ l → heightShp s ≤ heightShpL l := by
  intro l hm
  induction l with
  | nil => cases hm
  | cons a as ih =>
    rw [heightShpL]
    cases hm with
    | head => exact le_max_left _ _
    | tail _ hm2 => exact le_trans (ih hm2) (le_max_right _ _)

theorem shapeOf_child_height {t : Layout} {ch : Layout} (hm : ch ∈ t.children) :
    heightShp (shapeOf ch) + 1 ≤ heightShp (shapeOf t) := by
  cases t with
  | mk n cs =>
    rw [children_mk] at hm
    rw [shapeOf_mk, heightShp, shapeOfL_eq_map]
    have : shapeOf ch ∈ cs.map shapeOf := List.mem_map_of_mem shapeOf hm
    have h2 := heightShpL_ge (l := cs.map shapeOf) this
    omega

/-- Along a successful path lookup, the remaining height shrinks by one
per step: a valid path is never longer than the tree depth. -/
theorem sublayoutGo_height : ∀ (p : List Int) (t : Layout) (i : Nat) (tp : Layout),
    sublayoutGo t i p = .ok tp →
    heightShp (shapeOf tp) + p.length ≤ heightShp (shapeOf t) := by
  intro p
  induction p with
  | nil =>
    intro t i tp h
    cases h
    simp
  | cons c rest ih =>
    intro t i tp h
    rw [sublayoutGo] at h
    cases hch : pyIdx t.children c with
    | none => rw [hch] at h; exact absurd h (by simp)
    | some ch =>
      rw [hch] at h
      have h1 := ih ch (i + 1) tp h
      have h2 := shapeOf_child_height (pyIdx_mem hch)
      simp only [List.length_cons]
      omega

theorem descend_sublayoutGo : ∀ (p : List Int) (t : Layout) (tq : Layout) (i : Nat),
    descend t p = some tq → sublayoutGo t i p = .ok tq := by
  intro p
  induction p with
  | nil =>
    intro t tq i h
    cases h
    rfl
  | cons c rest ih =>
    intro t tq i h
    rw [descend] at h
    cases hch : pyIdx t.children c with
    | none => rw [hch] at h; exact absurd h (by simp)
    | some ch =>
      rw [hch] at h
      rw [sublayoutGo, hch]
      exact ih ch tq (i + 1) h

theorem sublayoutGo_append : ∀ (p : List Int) (q : List Int) (t : Layout) (i : Nat)
    (tp tq : Layout), sublayoutGo t i p = .ok tp → descend tp q = some tq →
    sublayoutGo t i (p ++ q) = .ok tq := by
  intro p
  induction p with
  | nil =>
    intro q t i tp tq hp hq
    cases hp
    exact descend_sublayoutGo q t tq i hq
  | cons c rest ih =>
    intro q t i tp tq hp hq
    rw [sublayoutGo] at hp
    cases hch : pyIdx t.children c with
    | none => rw [hch] at hp; exact absurd hp (by simp)
    | some ch =>
      rw [hch] at hp
      rw [List.cons_append, sublayoutGo, hch]
      exact ih q ch (i + 1) tp tq hp hq

/-- The `nmost_path` loop with enough fuel descends along daughter `n`
(0 or -1) to a node with no children, appending one copy of `n` per level
descended. -/
theorem nmostLoop_ok (n : Int) (hn : n = 0 ∨ n = -1) :
    ∀ (fuel : Nat) (t : Layout) (path : List Int),
      heightShp (shapeOf t) ≤ fuel →
      ∃ k tq, nmostLoop n fuel t path = some (path ++ List.replicate k n) ∧
        descend t (List.replicate k n) = some tq ∧ tq.children = [] := by
  intro fuel
  induction fuel with
  | zero =>
    intro t path hf
    cases t with
    | mk m cs =>
      rw [shapeOf_mk, heightShp] at hf
      omega
  | succ fuel ih =>
    intro t path hf
    cases hch : pyIdx t.children n with
    | none =>
      refine ⟨0, t, ?_, rfl, (pyIdx_zero_neg_one_none _ n hn).1 hch⟩
      simp only [nmostLoop, hch]
      simp
    | some ch =>
      have hh := shapeOf_child_height (pyIdx_mem hch)
      obtain ⟨k, tq, h1, h2, h3⟩ := ih ch (path ++ [n]) (by omega)
      refine ⟨k + 1, tq, ?_, ?_, h3⟩
      · simp only [nmostLoop, hch]
        rw [h1, List.append_assoc, List.singleton_append, ← List.replicate_succ]
      · rw [List.replicate_succ, descend, hch]
        exact h2

/-- C10: on a finished layout, `leftmost_path` and `rightmost_path`
(`nmost_path` with daughter 0 or -1) from any valid starting path return
a path that addresses a node with zero children, and the loop terminates
even though its depth-bound counter is never advanced — the embedded fuel
`depth + 1` is sufficient because each iteration descends one level until
a leaf's empty child tuple ends the loop. -/
theorem c10_nmost_path_leaf (o : Opts) (t : STree) (p : List Int) (n : Int)
    (hn : n = 0 ∨ n = -1) (tp : Layout)
    (hp : sublayout (mkLayout o t) p = .ok tp) :
    ∃ q tq, nmost_path (mkLayout o t) p n = .ok q ∧
      sublayout (mkLayout o t) q = .ok tq ∧ tq.children = [] := by
  have hshape : shapeOf (mkLayout o t).layout = shapeOfS t := by
    show shapeOf (normalize_y _ _ (normalize_widths o _)) = _
    rw [shape_normY, shape_norm]
    have hb : shapeOf (Layout.mk { (buildL o (heightS t - 1) 0 t).node with
        width := 100, x := 0 } (buildL o (heightS t - 1) 0 t).children) =
        shapeOf (buildL o (heightS t - 1) 0 t) := by
      cases hbl : buildL o (heightS t - 1) 0 t with
      | mk bn bcs => rw [node_mk, children_mk, shapeOf_mk, shapeOf_mk]
    rw [hb, shape_build]
  have hdep : (mkLayout o t).depth = heightS t - 1 := rfl
  have hlay : heightShp (shapeOf (mkLayout o t).layout) = heightS t := by
    rw [hshape, ← heightS_shape]
  have hpos : 1 ≤ heightS t := by
    cases t with
    | mk s cs => rw [heightS]; omega
  have hb2 : heightShp (shapeOf tp) + p.length ≤ heightS t := by
    rw [← hlay]
    exact sublayoutGo_height p (mkLayout o t).layout 0 tp hp
  have htp_pos : 1 ≤ heightShp (shapeOf tp) := by
    cases tp with
    | mk m cs => rw [shapeOf_mk, heightShp]; omega
  have hguard : p.length < (mkLayout o t).depth + 1 := by
    rw [hdep]
    omega
  obtain ⟨k, tq, hloop, hdesc, hleaf⟩ :=
    nmostLoop_ok n hn ((mkLayout o t).depth + 1) tp p (by rw [hdep]; omega)
  refine ⟨p ++ List.replicate k n, tq, ?_, ?_, hleaf⟩
  · simp only [nmost_path, hp, if_pos hguard, hloop]
  · exact sublayoutGo_append p _ _ 0 tp tq hp hdesc

/-- Witness for C10: on the finished default layout of a two-leaf tree,
the leftmost path from the root reaches a childless node. -/
theorem c10_nmost_path_leaf_witness :
    ∃ q tq,
      nmost_path (mkLayout defaultOpts (.mk "X" [.mk "a" [], .mk "b" []])) [] 0 = .ok q ∧
      sublayout (mkLayout defaultOpts (.mk "X" [.mk "a" [], .mk "b" []])) q = .ok tq ∧
      tq.children = [] :=
  c10_nmost_path_leaf defaultOpts _ [] 0 (Or.inl rfl) _ rfl

/-- On success, `_movement_find_y` appends exactly one arrow — the chosen
slot with the queried span — to the collision list. -/
theorem movement_find_y_spec : ∀ (fuel : Nat) (arrows : List Arrow) (x1 x2 y y2 : ℚ)
    (arr2 : List Arrow), movement_find_y fuel arrows x1 x2 y = some (y2, arr2) →
    arr2 = arrows ++ [⟨x1, x2, y2⟩] := by
  intro fuel
  induction fuel with
  | zero =>
    intro arrows x1 x2 y y2 arr2 h
    exact absurd h (by simp [movement_find_y])
  | succ fuel ih =>
    intro arrows x1 x2 y y2 arr2 h
    rw [movement_find_y] at h
    split at h
    · exact ih arrows x1 x2 (y + 1/2) y2 arr2 h
    · injection h with h2
      injection h2 with h3 h4
      subst h3
      exact h4.symm

/-- Helper for C8: a single annotation call preserves the whole geometry,
appends to the annotation and collision lists, and never shrinks
`extra_y`. -/
theorem applyAnn_frame (st : LayoutState) (call : AnnCall) (st2 : LayoutState)
    (h : applyAnn st call = .ok st2) :
    st2.options = st.options ∧ st2.layout = st.layout ∧ st2.depth = st.depth ∧
    st2.level_heights = st.level_heights ∧ st2.level_ys = st.level_ys ∧
    st2.max_width = st.max_width ∧
    (∃ new, st2.annotations = st.annotations ++ new) ∧
    (∃ na, st2.arrows = st.arrows ++ na) ∧
    st.extra_y ≤ st2.extra_y := by
  cases call with
  | box p =>
    simp only [applyAnn, box_constituent] at h
    cases hb : subtree_bounds st p with
    | error e =>
      rw [hb] at h
      exact absurd h (by simp)
    | ok b =>
      rw [hb] at h
      injection h with h2
      subst h2
      exact ⟨rfl, rfl, rfl, rfl, rfl, rfl, ⟨_, rfl⟩, ⟨[], by simp⟩, le_refl _⟩
  | underline p =>
    simp only [applyAnn, underline_constituent] at h
    cases hb : subtree_bounds st p with
    | error e =>
      rw [hb] at h
      exact absurd h (by simp)
    | ok b =>
      rw [hb] at h
      injection h with h2
      subst h2
      exact ⟨rfl, rfl, rfl, rfl, rfl, rfl, ⟨_, rfl⟩, ⟨[], by simp⟩, le_max_left _ _⟩
  | arrow p1 p2 =>
    simp only [applyAnn, movement_arrow] at h
    split at h
    · split at h
      · simp at h
      · split at h
        · simp at h
        · rename_i yr hf
          injection h with h2
          subst h2
          refine ⟨rfl, rfl, rfl, rfl, rfl, rfl, ⟨_, rfl⟩, ?_, le_max_left _ _⟩
          exact ⟨_, movement_find_y_spec _ _ _ _ _ _ _ hf⟩
    · simp at h
    · simp at h

/-- Helper for C8: a call-ordered sequence of annotation calls preserves
the geometry and never decreases `extra_y`. -/
theorem runAnns_frame : ∀ (calls : List AnnCall) (st st2 : LayoutState),
    runAnns st calls = .ok st2 →
    st2.options = st.options ∧ st2.layout = st.layout ∧ st2.depth = st.depth ∧
    st2.level_heights = st.level_heights ∧ st2.level_ys = st.level_ys ∧
    st2.max_width = st.max_width ∧ st.extra_y ≤ st2.extra_y := by
  intro calls
  induction calls with
  | nil =>
    intro st st2 h
    injection h with h2
    subst h2
    exact ⟨rfl, rfl, rfl, rfl, rfl, rfl, le_refl _⟩
  | cons c cs ih =>
    intro st st2 h
    rw [runAnns] at h
    cases ha : applyAnn st c with
    | error e =>
      rw [ha] at h
      exact absurd h (by simp [Except.bind])
    | ok stm =>
      rw [ha] at h
      have h2 : runAnns stm cs = .ok st2 := h
      have f1 := applyAnn_frame st c stm ha
      have f2 := ih stm st2 h2
      exact ⟨f2.1.trans f1.1, f2.2.1.trans f1.2.1, f2.2.2.1.trans f1.2.2.1,
        f2.2.2.2.1.trans f1.2.2.2.1, f2.2.2.2.2.1.trans f1.2.2.2.2.1,
        f2.2.2.2.2.2.1.trans f1.2.2.2.2.2.1,
        le_trans f1.2.2.2.2.2.2.2.2 f2.2.2.2.2.2.2⟩

/-- C8: the annotation operations (constituent box, underline, movement
arrow) leave every node's x, width, y, depth and the per-level row
heights and row offsets unchanged — the entire layout tree and level
tables are untouched; they only append to the annotation list (and, for
movement arrows, the collision list) and adjust the extra vertical slack
`extra_y`, which never decreases, also across any successful sequence of
annotation calls on the same layout. -/
theorem c8_annotation_frame_effect :
    (∀ (st : LayoutState) (call : AnnCall) (st2 : LayoutState),
      applyAnn st call = .ok st2 →
      st2.options = st.options ∧ st2.layout = st.layout ∧ st2.depth = st.depth ∧
      st2.level_heights = st.level_heights ∧ st2.level_ys = st.level_ys ∧
      st2.max_width = st.max_width ∧
      (∃ new, st2.annotations = st.annotations ++ new) ∧
      (∃ na, st2.arrows = st.arrows ++ na) ∧
      st.extra_y ≤ st2.extra_y) ∧
    (∀ (calls : List AnnCall) (st st2 : LayoutState),
      runAnns st calls = .ok st2 →
      st2.layout = st.layout ∧ st2.level_heights = st.level_heights ∧
      st2.level_ys = st.level_ys ∧ st.extra_y ≤ st2.extra_y) :=
  ⟨applyAnn_frame, fun calls st st2 h =>
    ⟨(runAnns_frame calls st st2 h).2.1, (runAnns_frame calls st st2 h).2.2.2.1,
     (runAnns_frame calls st st2 h).2.2.2.2.1,
     (runAnns_frame calls st st2 h).2.2.2.2.2.2⟩⟩

/-- Witness for C8: a constituent box on the concrete two-leaf layout
succeeds, leaves the layout intact and does not shrink `extra_y`. -/
theorem c8_annotation_frame_effect_witness :
    ∃ st2, applyAnn wState (.box []) = .ok st2 ∧
      st2.layout = wState.layout ∧ wState.extra_y ≤ st2.extra_y := by
  obtain ⟨st2, h⟩ : ∃ st2, applyAnn wState (.box []) = .ok st2 := ⟨_, rfl⟩
  have f := c8_annotation_frame_effect.1 wState (.box []) st2 h
  exact ⟨st2, h, f.2.1, f.2.2.2.2.2.2.2.2⟩

/-- C7 (amended): with no previously placed arrows, the y slot chosen for
a movement arrow's horizontal segment is the baseline of the deepest
intervening leaf (`y_distance(0, d) + level_heights[d]`) plus 1.5 em, and
it is recorded in the collision list; the slot search retries at +0.5 em
whenever any previously placed arrow sits at (`isclose`) the same y and
satisfies `x1 < a.x2 or x2 > a.x1` — a test that is weaker than span
overlap and excludes only identical degenerate point spans — and accepts
a slot exactly when no placed arrow passes that test, appending the
placed arrow to the collision list, which persists and grows by one entry
per successful call on the same layout. -/
theorem c7_movement_slot :
    (∀ (st : LayoutState) (p1 p2 : List Int) (st2 : LayoutState) (d : Nat),
      st.arrows = [] → movement_arrow st p1 p2 = .ok st2 →
      deepest_intervening_leaf st p1 p2 = .ok d →
      ∃ a : Arrow, st2.arrows = [a] ∧
        a.y = y_distance st 0 d + st.level_heights.getD d 0 + 3/2) ∧
    (∀ (fuel : Nat) (arrows : List Arrow) (x1 x2 y : ℚ),
      arrows.any (collides x1 x2 y) = true →
      movement_find_y (fuel + 1) arrows x1 x2 y =
        movement_find_y fuel arrows x1 x2 (y + 1/2)) ∧
    (∀ (fuel : Nat) (arrows : List Arrow) (x1 x2 y : ℚ),
      arrows.any (collides x1 x2 y) = false →
      movement_find_y (fuel + 1) arrows x1 x2 y = some (y, arrows ++ [⟨x1, x2, y⟩])) ∧
    (∀ (st : LayoutState) (p1 p2 : List Int) (st2 : LayoutState),
      movement_arrow st p1 p2 = .ok st2 →
      ∃ a : Arrow, st2.arrows = st.arrows ++ [a]) := by
  refine ⟨?_, ?_, ?_, ?_⟩
  · intro st p1 p2 st2 d harr h hd
    simp only [movement_arrow] at h
    split at h
    · split at h
      · simp at h
      · rename_i ydep hyd
        split at h
        · simp at h
        · rename_i yr hf
          rw [hd] at hyd
          injection hyd with hyd2
          subst hyd2
          rw [harr] at hf
          simp only [List.length_nil, Nat.zero_add, movement_find_y, List.any_nil,
            Bool.false_eq_true, if_false, List.nil_append] at hf
          injection hf with hf2
          subst hf2
          injection h with h2
          subst h2
          exact ⟨_, rfl, rfl⟩
    · simp at h
    · simp at h
  · intro fuel arrows x1 x2 y hcol
    rw [movement_find_y, if_pos hcol]
  · intro fuel arrows x1 x2 y hcol
    rw [movement_find_y, if_neg (by simp [hcol])]
  · intro st p1 p2 st2 h
    simp only [movement_arrow] at h
    split at h
    · split at h
      · simp at h
      · split at h
        · simp at h
        · rename_i yr hf
          injection h with h2
          subst h2
          exact ⟨_, movement_find_y_spec _ _ _ _ _ _ _ hf⟩
    · simp at h
    · simp at h

/-- Witness for C7 (amended): a movement arrow between the two leaves of
the concrete layout, with no prior arrows, lands at the baseline below
the deepest leaf (depth 1) plus 1.5 em and is recorded in the collision
list. -/
theorem c7_movement_slot_witness :
    ∃ st2 a, movement_arrow wState [0] [1] = .ok st2 ∧
      deepest_intervening_leaf wState [0] [1] = .ok 1 ∧
      st2.arrows = [a] ∧
      a.y = y_distance wState 0 1 + wState.level_heights.getD 1 0 + 3/2 := by
  obtain ⟨st2, h⟩ : ∃ st2, movement_arrow wState [0] [1] = .ok st2 := ⟨_, rfl⟩
  have hd : deepest_intervening_leaf wState [0] [1] = .ok 1 := rfl
  obtain ⟨a, ha1, ha2⟩ := c7_movement_slot.1 wState [0] [1] st2 1 rfl h hd
  exact ⟨st2, a, h, hd, ha1, ha2⟩

/-- Counterexample for C7 as stated: an existing arrow spanning `[0, 1]`
at y = 5 does not overlap the span `[2, 3]`, yet the slot search still
retries and returns 5.5 instead of the free slot 5 — the code's test
`x1 < a.x2 or x2 > a.x1` fires on non-overlapping spans. -/
theorem c7_movement_slot_counterexample :
    movement_find_y 2 [⟨0, 1, 5⟩] 2 3 5 = some (11/2, [⟨0, 1, 5⟩, ⟨2, 3, 11/2⟩]) ∧
    ¬ (max (0 : ℚ) 2 < min 1 3) := by
  have hpc1 : pyIsClose (5 : ℚ) 5 = true := by
    rw [pyIsClose, decide_eq_true_eq]
    norm_num
  have hpc2 : pyIsClose (5 + 1/2 : ℚ) 5 = false := by
    rw [pyIsClose, decide_eq_false_iff_not]
    rw [show (5 + 1/2 : ℚ) - 5 = 1/2 by norm_num]
    rw [abs_of_nonneg (by norm_num : (0 : ℚ) ≤ 1/2)]
    rw [abs_of_nonneg (by norm_num : (0 : ℚ) ≤ 5 + 1/2)]
    rw [abs_of_nonneg (by norm_num : (0 : ℚ) ≤ 5)]
    rw [max_eq_left (by norm_num : (5 : ℚ) ≤ 5 + 1/2)]
    norm_num
  have h1 : ([⟨0, 1, 5⟩] : List Arrow).any (collides 2 3 5) = true := by
    simp only [List.any_cons, List.any_nil, Bool.or_false, collides, hpc1,
      Bool.true_and, Bool.or_eq_true, decide_eq_true_eq]
    norm_num
  have h2 : ([⟨0, 1, 5⟩] : List Arrow).any (collides 2 3 (5 + 1/2)) = false := by
    simp only [List.any_cons, List.any_nil, Bool.or_false, collides, hpc2,
      Bool.false_and]
  constructor
  · show movement_find_y (1 + 1) [⟨0, 1, 5⟩] 2 3 5 = _
    rw [movement_find_y, if_pos h1]
    show movement_find_y (0 + 1) [⟨0, 1, 5⟩] 2 3 (5 + 1/2) = _
    rw [movement_find_y, if_neg (by rw [h2]; simp)]
    norm_num
  · norm_num [min_def, max_def]

/-- C9: `tree_parse` with the identity node function is idempotent — for
every tree value `t`, `tree_parse (tree_parse t)` is structurally equal to
`tree_parse t`, so already-parsed lisp-style tuples pass through
unchanged. -/
theorem c9_tree_parse_idempotent (t : PyVal) :
    tree_parse (tree_parse t) = tree_parse t := by
  induction t using pyval_ind with
  | hstr s => rfl
  | hatom n => rfl
  | htup l ih =>
    cases l with
    | nil => rfl
    | cons x xs =>
      rw [tree_parse, tree_parse, tree_parse_list_idem xs
        (fun c hc => ih c (by simp [hc]))]
  | hnltk a l ih =>
    rw [tree_parse, tree_parse, tree_parse_list_idem l ih]

end Svgling
